import Mathlib

/-!
# Entry: the one-line text editor of tui-go (`entry.go`)

A shallow embedding of `entry.go` and theorems about it.

* A Go `string` is a sequence of bytes: `GoString` is a list of byte values.
* Go `int` values are embedded as `Int`.  The only arithmetic, in `Draw`, is
  `tw - s.X` and `offx++`; a display width lies between 0 and the byte length,
  so for a width `s.X ≥ 0` neither operation leaves the 64-bit range, and for
  `s.X < 0` a wrapped and an unwrapped offset are both outside `0..len(text)`.
* `*Entry` methods that mutate the receiver return the new `Entry`.
* A callback (`func(*Entry)`) is host code.  It is embedded as a handle, and
  an invocation is recorded as a `Call` carrying the entry passed to it, in
  the order the calls are made.
* The constants `EventKey`, `KeyEnter`, `KeySpace`, `KeyBackspace2` are
  declared outside `entry.go`; `OnEvent` takes them as a parameter (`Consts`).
* `stringWidth` wraps the go-runewidth library; `Draw` takes it as a parameter.
* `heightForWidth` (a call into go-wordwrap) is not embedded.
-/

namespace Tui

/-- A Go string: its bytes, each a value below 256. -/
abbrev GoString := List Nat

/-- The type `image.Point`. -/
structure Point where
  X : Int
  Y : Int
deriving DecidableEq, Repr

/-- The type `SizePolicy` (a Go `int` enumeration declared outside `entry.go`). -/
abbrev SizePolicy := Int

/-- A handle for a host function of type `func(*Entry)`. -/
abbrev Callback := Nat

/-- The struct `Entry`; `none` in a callback field is Go's `nil`. -/
structure Entry where
  text : GoString
  size : Point
  focused : Bool
  onTextChange : Option Callback
  onSubmit : Option Callback
  sizePolicyX : SizePolicy
  sizePolicyY : SizePolicy
deriving DecidableEq, Repr

/-- One invocation of a callback: `e.onTextChange(e)` or `e.onSubmit(e)`,
with the entry that was passed. -/
inductive Call where
  | textChanged (fn : Callback) (arg : Entry)
  | submitted (fn : Callback) (arg : Entry)
deriving DecidableEq, Repr

/-- The struct `Event`, as far as `OnEvent` reads it: `Typ` is the field
`Type`, `Key` the named key (0 when the event carries a character), `Ch` the
rune. -/
structure Event where
  Typ : Nat
  Key : Nat
  Ch : Int
deriving DecidableEq, Repr

/-- The constants `OnEvent` compares against, declared outside `entry.go`. -/
structure Consts where
  EventKey : Nat
  KeyEnter : Nat
  KeySpace : Nat
  KeyBackspace2 : Nat
deriving DecidableEq, Repr

/-- The values termbox-go gives these constants (`EventKey` 0, Enter 0x0D,
Space 0x20, Backspace2 0x7F); used as a concrete instance. -/
def termboxConsts : Consts :=
  { EventKey := 0, KeyEnter := 0x0D, KeySpace := 0x20, KeyBackspace2 := 0x7F }

/-- Go's conversion `string(r)` of a rune: the UTF-8 encoding of `r`, and the
encoding of U+FFFD when `r` is not a valid code point. -/
def runeToString (r : Int) : GoString :=
  if r < 0 ∨ 0x10FFFF < r ∨ (0xD800 ≤ r ∧ r ≤ 0xDFFF) then [0xEF, 0xBF, 0xBD]
  else
    let n := r.toNat
    if n ≤ 0x7F then [n]
    else if n ≤ 0x7FF then [0xC0 + n / 64, 0x80 + n % 64]
    else if n ≤ 0xFFFF then [0xE0 + n / 4096, 0x80 + n / 64 % 64, 0x80 + n % 64]
    else [0xF0 + n / 262144, 0x80 + n / 4096 % 64, 0x80 + n / 64 % 64, 0x80 + n % 64]

/-- Go's `utf8.DecodeRune` on a non-empty string `b0 :: rest`: the rune at its
head and the number of bytes it takes; an ill-formed head is U+FFFD of one
byte. -/
def decodeRune (b0 : Nat) (rest : GoString) : Nat × Nat :=
  let cont (b : Nat) : Bool := 0x80 ≤ b && b ≤ 0xBF
  if b0 < 0x80 then (b0, 1)
  else if 0xC2 ≤ b0 ∧ b0 ≤ 0xDF then
    match rest with
    | b1 :: _ => if cont b1 then ((b0 - 0xC0) * 64 + (b1 - 0x80), 2) else (0xFFFD, 1)
    | _ => (0xFFFD, 1)
  else if 0xE0 ≤ b0 ∧ b0 ≤ 0xEF then
    match rest with
    | b1 :: b2 :: _ =>
      let lo := if b0 = 0xE0 then 0xA0 else 0x80
      let hi := if b0 = 0xED then 0x9F else 0xBF
      if lo ≤ b1 ∧ b1 ≤ hi ∧ cont b2 then
        ((b0 - 0xE0) * 4096 + (b1 - 0x80) * 64 + (b2 - 0x80), 3)
      else (0xFFFD, 1)
    | _ => (0xFFFD, 1)
  else if 0xF0 ≤ b0 ∧ b0 ≤ 0xF4 then
    match rest with
    | b1 :: b2 :: b3 :: _ =>
      let lo := if b0 = 0xF0 then 0x90 else 0x80
      let hi := if b0 = 0xF4 then 0x8F else 0xBF
      if lo ≤ b1 ∧ b1 ≤ hi ∧ cont b2 ∧ cont b3 then
        ((b0 - 0xF0) * 262144 + (b1 - 0x80) * 4096 + (b2 - 0x80) * 64 + (b3 - 0x80), 4)
      else (0xFFFD, 1)
    | _ => (0xFFFD, 1)
  else (0xFFFD, 1)

/-- The runes of a string as Go's `range` delimits them, each with its bytes;
`fuel` bounds the number of runes, and the length of the string is always
enough. -/
def runeChunks : Nat → GoString → List GoString
  | 0, _ => []
  | _, [] => []
  | fuel + 1, b0 :: rest =>
    let n := (decodeRune b0 rest).2
    (b0 :: rest.take (n - 1)) :: runeChunks fuel (rest.drop (n - 1))

/-- Modelled from the spec: `trimRightLen` is declared outside `entry.go`.
The spec has Backspace "remove the trailing portion corresponding to one
character's encoded byte-length" and requires that "Backspace after one append
restores the prior text value": `trimRightLen s n` drops the last `n` runes of
`s`, with the rune boundaries of Go's UTF-8 decoding (a byte that starts no
well-formed rune is a rune of its own). -/
def trimRightLen (s : GoString) (n : Nat) : GoString :=
  let runes := runeChunks s.length s
  (runes.take (runes.length - n)).flatten

/-- The constructor `NewEntry`: the zero value of every field. -/
def NewEntry : Entry :=
  { text := [], size := ⟨0, 0⟩, focused := false, onTextChange := none,
    onSubmit := none, sizePolicyX := 0, sizePolicyY := 0 }

namespace Entry

/-- The method `Size`. -/
def Size (e : Entry) : Point := e.size

/-- The method `MinSizeHint`. -/
def MinSizeHint (_e : Entry) : Point := ⟨1, 1⟩

/-- The method `SizeHint`. -/
def SizeHint (_e : Entry) : Point := ⟨10, 1⟩

/-- The method `SizePolicy`. -/
def SizePolicy (e : Entry) : Tui.SizePolicy × Tui.SizePolicy :=
  (e.sizePolicyX, e.sizePolicyY)

/-- The method `Resize`. -/
def Resize (e : Entry) (size : Point) : Entry := { e with size := size }

/-- The method `OnChanged`. -/
def OnChanged (e : Entry) (fn : Option Callback) : Entry := { e with onTextChange := fn }

/-- The method `OnSubmit`. -/
def OnSubmit (e : Entry) (fn : Option Callback) : Entry := { e with onSubmit := fn }

/-- The method `SetText`. -/
def SetText (e : Entry) (text : GoString) : Entry := { e with text := text }

/-- The method `Text`. -/
def Text (e : Entry) : GoString := e.text

/-- The method `SetSizePolicy`. -/
def SetSizePolicy (e : Entry) (horizontal vertical : Tui.SizePolicy) : Entry :=
  { e with sizePolicyX := horizontal, sizePolicyY := vertical }

/-- The method `SetFocused`. -/
def SetFocused (e : Entry) (f : Bool) : Entry := { e with focused := f }

/-- The statement `if e.onTextChange != nil { e.onTextChange(e) }`. -/
def fireTextChange (e : Entry) : List Call :=
  match e.onTextChange with
  | some fn => [Call.textChanged fn e]
  | none => []

/-- The statement `if e.onSubmit != nil { e.onSubmit(e) }`. -/
def fireSubmit (e : Entry) : List Call :=
  match e.onSubmit with
  | some fn => [Call.submitted fn e]
  | none => []

/-- The method `OnEvent`: the entry after the event and the callback
invocations made, in order.  The `switch` tries its cases in source order and
falls out (no change) when none matches. -/
def OnEvent (k : Consts) (e : Entry) (ev : Event) : Entry × List Call :=
  if !e.focused then (e, [])
  else if ev.Typ ≠ k.EventKey then (e, [])
  else if ev.Key ≠ 0 then
    if ev.Key = k.KeyEnter then (e, fireSubmit e)
    else if ev.Key = k.KeySpace then
      let e1 := { e with text := e.text ++ runeToString 0x20 }
      (e1, fireTextChange e1)
    else if ev.Key = k.KeyBackspace2 then
      if e.text.length > 0 then
        let e1 := { e with text := trimRightLen e.text 1 }
        (e1, fireTextChange e1)
      else (e, [])
    else (e, [])
  else
    let e1 := { e with text := e.text ++ runeToString ev.Ch }
    (e1, fireTextChange e1)

end Entry

/-- The key event that carries the character `c`: `Type = EventKey`,
`Key = 0`, `Ch = c`. -/
def charEvent (k : Consts) (c : Int) : Event := { Typ := k.EventKey, Key := 0, Ch := c }

/-- Delivers the events to `OnEvent` one after the other; the callback
invocations of all of them, in order. -/
def deliver (k : Consts) : Entry → List Event → Entry × List Call
  | e, [] => (e, [])
  | e, ev :: evs =>
    let r := Entry.OnEvent k e ev
    let r2 := deliver k r.1 evs
    (r2.1, r.2 ++ r2.2)

/-- One call `Entry` makes on a method of the painter it is drawn with. -/
inductive PainterCall where
  | FillRect (x y w h : Int)
  | DrawText (x y : Int) (text : GoString)
  | DrawCursor (x y : Int)
deriving DecidableEq, Repr

/-- What one call of `Draw` does: it runs to its end, having asked for the
brush style `style` and made the painter calls `calls` in order, or it stops
in the slice expression `text[offx:]` with Go's run-time panic "slice bounds
out of range", before any painter call. -/
inductive DrawResult where
  | drawn (style : String) (calls : List PainterCall)
  | slicePanic (offx : Int) (len : Nat)
deriving DecidableEq, Repr

/-- Go's slice expression `s[low:]` on a string: the bytes from index `low`
on when `0 ≤ low ≤ len(s)`, a run-time panic (`none`) otherwise. -/
def sliceFrom (s : GoString) (low : Int) : Option GoString :=
  if 0 ≤ low ∧ low ≤ (s.length : Int) then some (s.drop low.toNat) else none

/-- The method `Draw`, given the display-width function `stringWidth`.  The
function literal passed to `WithStyledBrush` is run once, with the painter
set to `style`. -/
def Entry.Draw (stringWidth : GoString → Int) (e : Entry) : DrawResult :=
  let s := e.Size
  let style := if e.focused then "entry" ++ ".focused" else "entry"
  let tw := stringWidth e.text
  let offx := tw - s.X
  let offx := if e.focused then offx + 1 else offx
  let sliced := if tw ≥ s.X then sliceFrom e.text offx else some e.text
  match sliced with
  | none => DrawResult.slicePanic offx e.text.length
  | some text =>
    DrawResult.drawn style
      ([PainterCall.FillRect 0 0 s.X 1, PainterCall.DrawText 0 0 text] ++
        (if e.focused then [PainterCall.DrawCursor (stringWidth text) 0] else []))

/-- The runes of a string, as Go's `range` yields them; `fuel` bounds the
number of runes, and the length of the string is always enough. -/
def decodeRunes : Nat → GoString → List Nat
  | 0, _ => []
  | _, [] => []
  | fuel + 1, b0 :: rest =>
    let d := decodeRune b0 rest
    d.1 :: decodeRunes fuel (rest.drop (d.2 - 1))

/-- Modelled from the spec: the columns of one rune, for the library
go-runewidth that is not part of `entry.go`.  The spec's display width
"accounts for wide characters": none for a control or format character or a
combining mark, two for a rune of the East Asian wide and fullwidth blocks and
of the emoji blocks, one for every other rune.  The ranges are the principal
ones of the library's tables, not all of them. -/
def runeWidth (r : Nat) : Int :=
  if r < 0x20 ∨ (0x7F ≤ r ∧ r < 0xA0) ∨ r = 0xAD ∨ (0x300 ≤ r ∧ r ≤ 0x36F) ∨
      (0x200B ≤ r ∧ r ≤ 0x200F) ∨ (0x2028 ≤ r ∧ r ≤ 0x202E) ∨ (0x206A ≤ r ∧ r ≤ 0x206F) ∨
      (0x20D0 ≤ r ∧ r ≤ 0x20F0) ∨ (0xFE20 ≤ r ∧ r ≤ 0xFE2F) ∨ r = 0xFEFF then 0
  else if (0x1100 ≤ r ∧ r ≤ 0x115F) ∨ (0x2E80 ≤ r ∧ r ≤ 0xA4CF) ∨ (0xAC00 ≤ r ∧ r ≤ 0xD7A3) ∨
      (0xF900 ≤ r ∧ r ≤ 0xFAFF) ∨ (0xFE30 ≤ r ∧ r ≤ 0xFE6F) ∨ (0xFF01 ≤ r ∧ r ≤ 0xFF60) ∨
      (0xFFE0 ≤ r ∧ r ≤ 0xFFE6) ∨ (0x1F300 ≤ r ∧ r ≤ 0x1F64F) ∨ (0x1F680 ≤ r ∧ r ≤ 0x1F6FF) ∨
      (0x1F900 ≤ r ∧ r ≤ 0x1F9FF) ∨ (0x20000 ≤ r ∧ r ≤ 0x3FFFD) then 2
  else 1

/-- Modelled from the spec: `stringWidth` is declared outside `entry.go`; it
is the "number of terminal columns a string occupies, accounting for wide
characters": the sum of the columns of its runes.  The theorems about `Draw`
hold for every width function and use this one as an instance. -/
def stringWidth (s : GoString) : Int :=
  ((decodeRunes s.length s).map runeWidth).sum

/-- Every byte of the string is a printable ASCII character (0x20 to 0x7E). -/
def PrintableASCII (s : GoString) : Prop := ∀ b ∈ s, 0x20 ≤ b ∧ b ≤ 0x7E

instance (s : GoString) : Decidable (PrintableASCII s) := by
  unfold PrintableASCII; infer_instance

/-- A width function that gives printable ASCII text one column per
character, as a display width does. -/
def AsciiColumns (sw : GoString → Int) : Prop :=
  ∀ s : GoString, PrintableASCII s → sw s = (s.length : Int)

/-- The key event of the named key `key`; `ch` is whatever the event holds
in its field `Ch`. -/
def keyEvent (k : Consts) (key : Nat) (ch : Int) : Event :=
  { Typ := k.EventKey, Key := key, Ch := ch }

/-- One call of a method of `Entry` that may change it or draw it. -/
inductive Op where
  | Resize (size : Point)
  | OnEvent (ev : Event)
  | OnChanged (fn : Option Callback)
  | OnSubmit (fn : Option Callback)
  | SetText (text : GoString)
  | SetSizePolicy (horizontal vertical : SizePolicy)
  | SetFocused (f : Bool)
  | Draw
deriving DecidableEq, Repr

/-- The entry after one method call and the callback invocations the call
makes.  Only `OnEvent` invokes a callback; `Draw` reads the entry and leaves
it as it is (what it paints is `Entry.Draw`). -/
def perform (k : Consts) (e : Entry) : Op → Entry × List Call
  | Op.Resize size => (e.Resize size, [])
  | Op.OnEvent ev => e.OnEvent k ev
  | Op.OnChanged fn => (e.OnChanged fn, [])
  | Op.OnSubmit fn => (e.OnSubmit fn, [])
  | Op.SetText text => (e.SetText text, [])
  | Op.SetSizePolicy h v => (e.SetSizePolicy h v, [])
  | Op.SetFocused f => (e.SetFocused f, [])
  | Op.Draw => (e, [])

/-- The entry after a sequence of method calls, and all callback invocations
in order. -/
def performAll (k : Consts) : Entry → List Op → Entry × List Call
  | e, [] => (e, [])
  | e, op :: ops =>
    let r := perform k e op
    let r2 := performAll k r.1 ops
    (r2.1, r.2 ++ r2.2)

/-- A Unicode code point that is not a surrogate: the runes that `string(r)`
encodes as themselves. -/
def ValidRune (c : Int) : Prop := 0 ≤ c ∧ c ≤ 0x10FFFF ∧ ¬ (0xD800 ≤ c ∧ c ≤ 0xDFFF)

/-- The argument of the most recent `Resize` in a sequence of method calls,
and `p` when the sequence has none. -/
def lastResize : Point → List Op → Point
  | p, [] => p
  | _, Op.Resize q :: ops => lastResize q ops
  | p, _ :: ops => lastResize p ops

/-! ## Lemmas -/

theorem OnEvent_char (k : Consts) (e : Entry) (c : Int) (h : e.focused = true) :
    e.OnEvent k (charEvent k c) =
      ({ e with text := e.text ++ runeToString c },
        Entry.fireTextChange { e with text := e.text ++ runeToString c }) := by
  simp [Entry.OnEvent, charEvent, h]

theorem OnEvent_backspace (k : Consts) (e : Entry) (ch : Int) (h : e.focused = true)
    (h0 : k.KeyBackspace2 ≠ 0) (hE : k.KeyBackspace2 ≠ k.KeyEnter)
    (hS : k.KeyBackspace2 ≠ k.KeySpace) :
    e.OnEvent k (keyEvent k k.KeyBackspace2 ch) =
      if e.text.length > 0 then
        ({ e with text := trimRightLen e.text 1 },
          Entry.fireTextChange { e with text := trimRightLen e.text 1 })
      else (e, []) := by
  simp [Entry.OnEvent, keyEvent, h, h0, hE, hS]

theorem runeToString_ascii (c : Int) (h0 : 0 ≤ c) (h1 : c ≤ 0x7F) :
    runeToString c = [c.toNat] := by
  have h2 : ¬ (c < 0 ∨ 0x10FFFF < c ∨ (0xD800 ≤ c ∧ c ≤ 0xDFFF)) := by omega
  have h3 : c.toNat ≤ 0x7F := by omega
  simp only [runeToString, if_neg h2, if_pos h3]

theorem decodeRunes_ascii : ∀ (fuel : Nat) (s : GoString), s.length ≤ fuel →
    PrintableASCII s → decodeRunes fuel s = s := by
  intro fuel
  induction fuel with
  | zero =>
    intro s hlen _
    have : s = [] := List.length_eq_zero.mp (Nat.le_zero.mp hlen)
    subst this
    rfl
  | succ fuel ih =>
    intro s hlen hs
    cases s with
    | nil => rfl
    | cons b rest =>
      have hb : 0x20 ≤ b ∧ b ≤ 0x7E := hs b (List.mem_cons_self b rest)
      have hrest : PrintableASCII rest := fun x hx => hs x (List.mem_cons_of_mem b hx)
      have hd : decodeRune b rest = (b, 1) := by
        have : b < 0x80 := by omega
        simp [decodeRune, this]
      have hl : rest.length ≤ fuel := by simpa using hlen
      simp only [decodeRunes, hd, Nat.sub_self, List.drop_zero, ih rest hl hrest]

theorem sum_runeWidth_ascii : ∀ (s : GoString), PrintableASCII s →
    (s.map runeWidth).sum = (s.length : Int) := by
  intro s
  induction s with
  | nil => intro _; rfl
  | cons b rest ih =>
    intro hs
    have hb : 0x20 ≤ b ∧ b ≤ 0x7E := hs b (List.mem_cons_self b rest)
    have hrest : PrintableASCII rest := fun x hx => hs x (List.mem_cons_of_mem b hx)
    have hw : runeWidth b = 1 := by
      unfold runeWidth
      rw [if_neg (by omega), if_neg (by omega)]
    simp only [List.map_cons, List.sum_cons, hw, ih hrest, List.length_cons]
    push_cast
    ring

/-- The width function `stringWidth` gives printable ASCII text one column per
character. -/
theorem stringWidth_ascii : AsciiColumns stringWidth := by
  intro s hs
  unfold stringWidth
  rw [decodeRunes_ascii s.length s (Nat.le_refl _) hs]
  exact sum_runeWidth_ascii s hs

theorem PrintableASCII_drop (s : GoString) (n : Nat) (h : PrintableASCII s) :
    PrintableASCII (s.drop n) :=
  fun b hb => h b (List.mem_of_mem_drop hb)

/-- With a width of at least one column and a display width of at most the
byte length, `Draw` runs to its end. -/
theorem Draw_runs_of_width_pos (sw : GoString → Int) (e : Entry) (hW : 1 ≤ e.size.X)
    (h1 : sw e.text ≤ (e.text.length : Int)) :
    ∃ style calls, e.Draw sw = DrawResult.drawn style calls := by
  unfold Entry.Draw
  simp only [Entry.Size]
  by_cases hge : sw e.text ≥ e.size.X
  · have hsl : ∃ t, sliceFrom e.text (if e.focused = true then sw e.text - e.size.X + 1
        else sw e.text - e.size.X) = some t := by
      unfold sliceFrom
      split_ifs with _ hb hb
      · exact ⟨_, rfl⟩
      · exfalso; apply hb; constructor <;> omega
      · exact ⟨_, rfl⟩
      · exfalso; apply hb; constructor <;> omega
    obtain ⟨t, ht⟩ := hsl
    simp only [if_pos hge, ht]
    exact ⟨_, _, rfl⟩
  · simp only [if_neg hge]
    exact ⟨_, _, rfl⟩

theorem decodeRune_runeToString (c : Int) (hv : ValidRune c) (rest : GoString) :
    ∃ b0 tl, runeToString c = b0 :: tl ∧
      decodeRune b0 (tl ++ rest) = (c.toNat, tl.length + 1) := by
  obtain ⟨h0, h1, h2⟩ := hv
  have hinv : ¬ (c < 0 ∨ 0x10FFFF < c ∨ (0xD800 ≤ c ∧ c ≤ 0xDFFF)) := by omega
  obtain ⟨n, rfl⟩ : ∃ n : Nat, c = (n : Int) := ⟨c.toNat, by omega⟩
  simp only [runeToString, if_neg hinv, Int.toNat_ofNat]
  have hn : n ≤ 0x10FFFF := by omega
  have hs : ¬ (0xD800 ≤ n ∧ n ≤ 0xDFFF) := by omega
  clear hinv h0 h1 h2
  by_cases c1 : n ≤ 0x7F
  · refine ⟨n, [], by simp [c1], ?_⟩
    have : n < 0x80 := by omega
    simp [decodeRune, this]
  · by_cases c2 : n ≤ 0x7FF
    · refine ⟨0xC0 + n / 64, [0x80 + n % 64], by simp [c1, c2], ?_⟩
      have a1 : ¬ (0xC0 + n / 64 < 0x80) := by omega
      have a2 : 0xC2 ≤ 0xC0 + n / 64 ∧ 0xC0 + n / 64 ≤ 0xDF := by omega
      have a3 : 0x80 + n % 64 ≤ 0xBF := by omega
      simp only [decodeRune, if_neg a1, if_pos a2, List.cons_append, List.nil_append]
      simp [a3]
      omega
    · by_cases c3 : n ≤ 0xFFFF
      · refine ⟨0xE0 + n / 4096, [0x80 + n / 64 % 64, 0x80 + n % 64], by simp [c1, c2, c3], ?_⟩
        have a1 : ¬ (0xE0 + n / 4096 < 0x80) := by omega
        have a2 : ¬ (0xC2 ≤ 0xE0 + n / 4096 ∧ 0xE0 + n / 4096 ≤ 0xDF) := by omega
        have a3 : 0xE0 ≤ 0xE0 + n / 4096 ∧ 0xE0 + n / 4096 ≤ 0xEF := by omega
        have a4 : (if 0xE0 + n / 4096 = 0xE0 then 0xA0 else 0x80) ≤ 0x80 + n / 64 % 64 ∧
            0x80 + n / 64 % 64 ≤ (if 0xE0 + n / 4096 = 0xED then 0x9F else 0xBF) ∧
            ((0x80 ≤ 0x80 + n % 64 && 0x80 + n % 64 ≤ 0xBF) = true) := by
          refine ⟨?_, ?_, ?_⟩
          · split_ifs <;> omega
          · split_ifs <;> omega
          · simp; omega
        simp only [decodeRune, if_neg a1, if_neg a2, if_pos a3, List.cons_append,
          List.nil_append, if_pos a4, List.length_cons, List.length_nil]
        simp
        omega
      · refine ⟨0xF0 + n / 262144, [0x80 + n / 4096 % 64, 0x80 + n / 64 % 64, 0x80 + n % 64],
          by simp [c1, c2, c3], ?_⟩
        have a1 : ¬ (0xF0 + n / 262144 < 0x80) := by omega
        have a2 : ¬ (0xC2 ≤ 0xF0 + n / 262144 ∧ 0xF0 + n / 262144 ≤ 0xDF) := by omega
        have a3 : ¬ (0xE0 ≤ 0xF0 + n / 262144 ∧ 0xF0 + n / 262144 ≤ 0xEF) := by omega
        have a5 : 0xF0 ≤ 0xF0 + n / 262144 ∧ 0xF0 + n / 262144 ≤ 0xF4 := by omega
        have a4 : (if 0xF0 + n / 262144 = 0xF0 then 0x90 else 0x80) ≤ 0x80 + n / 4096 % 64 ∧
            0x80 + n / 4096 % 64 ≤ (if 0xF0 + n / 262144 = 0xF4 then 0x8F else 0xBF) ∧
            ((0x80 ≤ 0x80 + n / 64 % 64 && 0x80 + n / 64 % 64 ≤ 0xBF) = true) ∧
            ((0x80 ≤ 0x80 + n % 64 && 0x80 + n % 64 ≤ 0xBF) = true) := by
          refine ⟨?_, ?_, ?_, ?_⟩
          · split_ifs <;> omega
          · split_ifs <;> omega
          · simp; omega
          · simp; omega
        simp only [decodeRune, if_neg a1, if_neg a2, if_neg a3, if_pos a5, List.cons_append,
          List.nil_append, if_pos a4, List.length_cons, List.length_nil]
        simp
        omega


theorem decodeRunes_runeToString : ∀ (cs : List Int) (fuel : Nat), cs.length ≤ fuel →
    (∀ c ∈ cs, ValidRune c) →
    decodeRunes fuel (cs.map runeToString).flatten = cs.map Int.toNat := by
  intro cs
  induction cs with
  | nil => intro fuel _ _; cases fuel <;> rfl
  | cons c cs ih =>
    intro fuel hlen hv
    cases fuel with
    | zero => simp at hlen
    | succ fuel =>
      obtain ⟨b0, tl, henc, hdec⟩ :=
        decodeRune_runeToString c (hv c (List.mem_cons_self c cs)) (cs.map runeToString).flatten
      have hl : cs.length ≤ fuel := by simpa using hlen
      have hv2 : ∀ x ∈ cs, ValidRune x := fun x hx => hv x (List.mem_cons_of_mem c hx)
      simp only [List.map_cons, List.flatten_cons, henc, List.cons_append, decodeRunes, hdec,
        Nat.add_sub_cancel, List.drop_left, ih fuel hl hv2]

theorem length_le_flatten_runeToString (cs : List Int) :
    cs.length ≤ (cs.map runeToString).flatten.length := by
  induction cs with
  | nil => simp
  | cons c cs ih =>
    have : 1 ≤ (runeToString c).length := by
      simp only [runeToString]
      split_ifs <;> simp
    simp only [List.map_cons, List.flatten_cons, List.length_append, List.length_cons]
    omega

/-- The method `OnEvent` assigns to no field but `text`. -/
theorem OnEvent_frame (k : Consts) (e : Entry) (ev : Event) :
    (e.OnEvent k ev).1 = { e with text := (e.OnEvent k ev).1.text } := by
  unfold Entry.OnEvent
  split_ifs <;> rfl

theorem perform_sizePolicy (k : Consts) (e : Entry) (op : Op)
    (h : ∀ x y, op ≠ Op.SetSizePolicy x y) :
    (perform k e op).1.SizePolicy = e.SizePolicy := by
  cases op with
  | OnEvent ev =>
    show ((e.OnEvent k ev).1).SizePolicy = e.SizePolicy
    rw [OnEvent_frame k e ev]
    rfl
  | SetSizePolicy x y => exact absurd rfl (h x y)
  | _ => rfl

theorem perform_focused (k : Consts) (e : Entry) (op : Op)
    (h : ∀ b, op ≠ Op.SetFocused b) :
    (perform k e op).1.focused = e.focused := by
  cases op with
  | OnEvent ev =>
    show ((e.OnEvent k ev).1).focused = e.focused
    rw [OnEvent_frame k e ev]
  | SetFocused b => exact absurd rfl (h b)
  | _ => rfl

theorem perform_size (k : Consts) (e : Entry) (op : Op)
    (h : ∀ p, op ≠ Op.Resize p) :
    (perform k e op).1.size = e.size := by
  cases op with
  | OnEvent ev =>
    show ((e.OnEvent k ev).1).size = e.size
    rw [OnEvent_frame k e ev]
  | Resize p => exact absurd rfl (h p)
  | _ => rfl

theorem OnEvent_space (k : Consts) (e : Entry) (ch : Int) (h : e.focused = true)
    (h0 : k.KeySpace ≠ 0) (hE : k.KeySpace ≠ k.KeyEnter) :
    e.OnEvent k (keyEvent k k.KeySpace ch) =
      ({ e with text := e.text ++ [0x20] },
        Entry.fireTextChange { e with text := e.text ++ [0x20] }) := by
  have hsp : runeToString 0x20 = [0x20] := by decide
  simp [Entry.OnEvent, keyEvent, h, h0, hE, hsp]

theorem OnEvent_other_key (k : Consts) (e : Entry) (key : Nat) (ch : Int)
    (h : e.focused = true) (h0 : key ≠ 0) (hE : key ≠ k.KeyEnter) (hS : key ≠ k.KeySpace)
    (hB : key ≠ k.KeyBackspace2) :
    e.OnEvent k (keyEvent k key ch) = (e, []) := by
  simp [Entry.OnEvent, keyEvent, h, h0, hE, hS, hB]

theorem performAll_size (k : Consts) : ∀ (ops : List Op) (e : Entry),
    (performAll k e ops).1.Size = lastResize e.Size ops := by
  intro ops
  induction ops with
  | nil => intro e; rfl
  | cons op ops ih =>
    intro e
    simp only [performAll]
    rw [ih (perform k e op).1]
    cases op with
    | Resize p => rfl
    | OnEvent ev =>
      have h : (perform k e (Op.OnEvent ev)).1.size = e.size :=
        perform_size k e (Op.OnEvent ev) (by intro p; simp)
      simp only [Entry.Size, h, lastResize]
    | _ => rfl

theorem lastResize_nonneg : ∀ (ops : List Op) (p : Point), 0 ≤ p.X ∧ 0 ≤ p.Y →
    (∀ q, Op.Resize q ∈ ops → 0 ≤ q.X ∧ 0 ≤ q.Y) →
    0 ≤ (lastResize p ops).X ∧ 0 ≤ (lastResize p ops).Y := by
  intro ops
  induction ops with
  | nil => intro p hp _; exact hp
  | cons op ops ih =>
    intro p hp h
    have hrest : ∀ q, Op.Resize q ∈ ops → 0 ≤ q.X ∧ 0 ≤ q.Y :=
      fun q hq => h q (List.mem_cons_of_mem op hq)
    cases op with
    | Resize q => exact ih q (h q (List.mem_cons_self _ ops)) hrest
    | _ => exact ih p hp hrest

/-- When the display width of the text is less than the width of the entry,
`Draw` takes no slice and draws the text whole. -/
theorem Draw_of_width_lt (sw : GoString → Int) (e : Entry) (h : sw e.text < e.size.X) :
    e.Draw sw = DrawResult.drawn (if e.focused then "entry.focused" else "entry")
      ([PainterCall.FillRect 0 0 e.size.X 1, PainterCall.DrawText 0 0 e.text] ++
        (if e.focused then [PainterCall.DrawCursor (sw e.text) 0] else [])) := by
  have hge : ¬ (sw e.text ≥ e.size.X) := by omega
  unfold Entry.Draw
  cases hf : e.focused with
  | true =>
    simp only [Entry.Size, if_true, if_neg hge]
    rfl
  | false =>
    simp only [Entry.Size, Bool.false_eq_true, if_false, if_neg hge]

theorem decodeRune_size (b0 : Nat) (rest : GoString) :
    1 ≤ (decodeRune b0 rest).2 ∧ (decodeRune b0 rest).2 ≤ rest.length + 1 := by
  unfold decodeRune
  rcases rest with _ | ⟨b1, _ | ⟨b2, _ | ⟨b3, rest⟩⟩⟩ <;>
    (simp only []; split_ifs <;> simp)

theorem decodeRune_append (b0 : Nat) (rest : GoString) (m0 : Nat) (more : GoString)
    (hm : ¬ (0x80 ≤ m0 ∧ m0 ≤ 0xBF)) :
    decodeRune b0 (rest ++ m0 :: more) = decodeRune b0 rest := by
  have hc : ¬ ((0x80 ≤ m0 && m0 ≤ 0xBF) = true) := by
    simp only [Bool.and_eq_true, decide_eq_true_eq]; exact hm
  by_cases c1 : b0 < 0x80
  · simp only [decodeRune, if_pos c1]
  by_cases c2 : 0xC2 ≤ b0 ∧ b0 ≤ 0xDF
  · rcases rest with _ | ⟨b1, rest⟩
    · simp only [decodeRune, if_neg c1, if_pos c2, List.nil_append, if_neg hc]
    · simp only [decodeRune, if_neg c1, if_pos c2, List.cons_append]
  by_cases c3 : 0xE0 ≤ b0 ∧ b0 ≤ 0xEF
  · rcases rest with _ | ⟨b1, _ | ⟨b2, rest⟩⟩
    · rcases more with _ | ⟨m1, more⟩
      · simp only [decodeRune, if_neg c1, if_neg c2, if_pos c3, List.nil_append]
      · have h3 : ¬ ((if b0 = 0xE0 then 0xA0 else 0x80) ≤ m0 ∧
            m0 ≤ (if b0 = 0xED then 0x9F else 0xBF) ∧
            ((0x80 ≤ m1 && m1 ≤ 0xBF) = true)) := by
          rintro ⟨h1, h2, _⟩
          split_ifs at h1 h2 <;> omega
        simp only [decodeRune, if_neg c1, if_neg c2, if_pos c3, List.nil_append, if_neg h3]
    · have h3 : ¬ ((if b0 = 0xE0 then 0xA0 else 0x80) ≤ b1 ∧
          b1 ≤ (if b0 = 0xED then 0x9F else 0xBF) ∧
          ((0x80 ≤ m0 && m0 ≤ 0xBF) = true)) := by
        rintro ⟨_, _, h3⟩
        exact hc h3
      simp only [decodeRune, if_neg c1, if_neg c2, if_pos c3, List.cons_append,
        List.nil_append, if_neg h3]
    · simp only [decodeRune, if_neg c1, if_neg c2, if_pos c3, List.cons_append]
  by_cases c4 : 0xF0 ≤ b0 ∧ b0 ≤ 0xF4
  · rcases rest with _ | ⟨b1, _ | ⟨b2, _ | ⟨b3, rest⟩⟩⟩
    · rcases more with _ | ⟨m1, _ | ⟨m2, more⟩⟩
      · simp only [decodeRune, if_neg c1, if_neg c2, if_neg c3, if_pos c4, List.nil_append]
      · simp only [decodeRune, if_neg c1, if_neg c2, if_neg c3, if_pos c4, List.nil_append]
      · have h4 : ¬ ((if b0 = 0xF0 then 0x90 else 0x80) ≤ m0 ∧
            m0 ≤ (if b0 = 0xF4 then 0x8F else 0xBF) ∧
            ((0x80 ≤ m1 && m1 ≤ 0xBF) = true) ∧ ((0x80 ≤ m2 && m2 ≤ 0xBF) = true)) := by
          rintro ⟨h1, h2, _⟩
          split_ifs at h1 h2 <;> omega
        simp only [decodeRune, if_neg c1, if_neg c2, if_neg c3, if_pos c4, List.nil_append,
          if_neg h4]
    · rcases more with _ | ⟨m1, more⟩
      · simp only [decodeRune, if_neg c1, if_neg c2, if_neg c3, if_pos c4, List.cons_append,
          List.nil_append]
      · have h4 : ¬ ((if b0 = 0xF0 then 0x90 else 0x80) ≤ b1 ∧
            b1 ≤ (if b0 = 0xF4 then 0x8F else 0xBF) ∧
            ((0x80 ≤ m0 && m0 ≤ 0xBF) = true) ∧ ((0x80 ≤ m1 && m1 ≤ 0xBF) = true)) := by
          rintro ⟨_, _, h3, _⟩
          exact hc h3
        simp only [decodeRune, if_neg c1, if_neg c2, if_neg c3, if_pos c4, List.cons_append,
          List.nil_append, if_neg h4]
    · have h4 : ¬ ((if b0 = 0xF0 then 0x90 else 0x80) ≤ b1 ∧
          b1 ≤ (if b0 = 0xF4 then 0x8F else 0xBF) ∧
          ((0x80 ≤ b2 && b2 ≤ 0xBF) = true) ∧ ((0x80 ≤ m0 && m0 ≤ 0xBF) = true)) := by
        rintro ⟨_, _, _, h3⟩
        exact hc h3
      simp only [decodeRune, if_neg c1, if_neg c2, if_neg c3, if_pos c4, List.cons_append,
        List.nil_append, if_neg h4]
    · simp only [decodeRune, if_neg c1, if_neg c2, if_neg c3, if_pos c4, List.cons_append]
  simp only [decodeRune, if_neg c1, if_neg c2, if_neg c3, if_neg c4]

theorem runeToString_head (c : Int) :
    ∃ h tl, runeToString c = h :: tl ∧ ¬ (0x80 ≤ h ∧ h ≤ 0xBF) := by
  simp only [runeToString]
  split_ifs
  · exact ⟨_, _, rfl, by omega⟩
  · exact ⟨_, _, rfl, by omega⟩
  · exact ⟨_, _, rfl, by omega⟩
  · exact ⟨_, _, rfl, by omega⟩
  · exact ⟨_, _, rfl, by omega⟩

theorem runeToString_invalid (c : Int) (hv : ¬ ValidRune c) :
    runeToString c = runeToString 0xFFFD := by
  have h : c < 0 ∨ 0x10FFFF < c ∨ (0xD800 ≤ c ∧ c ≤ 0xDFFF) := by
    unfold ValidRune at hv
    omega
  have hr : runeToString 0xFFFD = [0xEF, 0xBF, 0xBD] := by decide
  rw [hr]
  simp only [runeToString, if_pos h]

/-- The string `string(c)` is one rune: it starts with a byte that continues
no rune, and Go decodes all of it as a single rune. -/
theorem runeToString_single_rune (c : Int) :
    ∃ h tl, runeToString c = h :: tl ∧ ¬ (0x80 ≤ h ∧ h ≤ 0xBF) ∧
      (decodeRune h tl).2 = tl.length + 1 := by
  have key : ∀ c : Int, ValidRune c → ∃ h tl, runeToString c = h :: tl ∧
      ¬ (0x80 ≤ h ∧ h ≤ 0xBF) ∧ (decodeRune h tl).2 = tl.length + 1 := by
    intro c hv
    obtain ⟨b0, tl, henc, hdec⟩ := decodeRune_runeToString c hv []
    obtain ⟨h, tl2, henc2, hh⟩ := runeToString_head c
    rw [henc] at henc2
    obtain ⟨rfl, rfl⟩ := List.cons.inj henc2
    rw [List.append_nil] at hdec
    exact ⟨b0, tl, henc, hh, by rw [hdec]⟩
  by_cases hv : ValidRune c
  · exact key c hv
  · rw [runeToString_invalid c hv]
    exact key 0xFFFD (by unfold ValidRune; omega)

theorem runeChunks_nil (fuel : Nat) : runeChunks fuel [] = [] := by
  cases fuel <;> rfl

theorem runeChunks_flatten : ∀ (fuel : Nat) (s : GoString), s.length ≤ fuel →
    (runeChunks fuel s).flatten = s := by
  intro fuel
  induction fuel with
  | zero =>
    intro s hs
    have : s = [] := List.length_eq_zero.mp (Nat.le_zero.mp hs)
    subst this
    rfl
  | succ fuel ih =>
    intro s hs
    cases s with
    | nil => rfl
    | cons b0 rest =>
      have hl : (rest.drop ((decodeRune b0 rest).2 - 1)).length ≤ fuel := by
        have : rest.length ≤ fuel := by simpa using hs
        rw [List.length_drop]; omega
      simp only [runeChunks, List.flatten_cons, ih _ hl, List.cons_append,
        List.take_append_drop]

theorem runeChunks_ne_nil : ∀ (fuel : Nat) (s : GoString), ∀ x ∈ runeChunks fuel s, x ≠ [] := by
  intro fuel
  induction fuel with
  | zero => intro s x hx; simp [runeChunks] at hx
  | succ fuel ih =>
    intro s x hx
    cases s with
    | nil => simp [runeChunks] at hx
    | cons b0 rest =>
      simp only [runeChunks, List.mem_cons] at hx
      rcases hx with rfl | hx
      · simp
      · exact ih _ x hx

theorem runeChunks_append_rune (c : Int) : ∀ (fuel : Nat) (t : GoString),
    t.length + 1 ≤ fuel →
    runeChunks fuel (t ++ runeToString c) = runeChunks fuel t ++ [runeToString c] := by
  obtain ⟨h, tl, henc, hh, hsz⟩ := runeToString_single_rune c
  rw [henc]
  intro fuel
  induction fuel with
  | zero => intro t ht; omega
  | succ fuel ih =>
    intro t ht
    cases t with
    | nil =>
      simp only [List.nil_append, runeChunks, hsz, Nat.add_sub_cancel, List.take_length,
        List.drop_length, runeChunks_nil]
    | cons b0 rest =>
      have hlen : rest.length + 1 ≤ fuel := by simpa using ht
      have hsize := decodeRune_size b0 rest
      have hn : (decodeRune b0 rest).2 - 1 ≤ rest.length := by omega
      have hl : (rest.drop ((decodeRune b0 rest).2 - 1)).length + 1 ≤ fuel := by
        rw [List.length_drop]; omega
      simp only [List.cons_append, runeChunks, List.append_eq,
        decodeRune_append b0 rest h tl hh, List.take_append_of_le_length hn,
        List.drop_append_of_le_length hn, ih _ hl]

theorem trimRightLen_append_rune (t : GoString) (c : Int) :
    trimRightLen (t ++ runeToString c) 1 = t := by
  have hlen : t.length + 1 ≤ (t ++ runeToString c).length := by
    obtain ⟨h, tl, henc, _, _⟩ := runeToString_single_rune c
    rw [henc]; simp
  unfold trimRightLen
  simp only []
  rw [runeChunks_append_rune c _ t hlen, List.length_append, List.length_singleton,
    Nat.add_sub_cancel, List.take_left]
  exact runeChunks_flatten _ t (by omega)

theorem trimRightLen_length_lt (t : GoString) (h : t ≠ []) :
    (trimRightLen t 1).length < t.length := by
  have hne : runeChunks t.length t ≠ [] := by
    intro he
    have := runeChunks_flatten t.length t (Nat.le_refl _)
    rw [he] at this
    exact h this.symm
  have hlast : (runeChunks t.length t).getLast hne ≠ [] :=
    runeChunks_ne_nil _ _ _ (List.getLast_mem hne)
  have hsplit := List.dropLast_append_getLast hne
  have hflat : ((runeChunks t.length t).dropLast).flatten ++
      (runeChunks t.length t).getLast hne = t := by
    have := runeChunks_flatten t.length t (Nat.le_refl _)
    rw [← hsplit, List.flatten_append] at this
    simpa using this
  have hpos : 0 < ((runeChunks t.length t).getLast hne).length := List.length_pos.mpr hlast
  have hl : t.length = ((runeChunks t.length t).dropLast).flatten.length +
      ((runeChunks t.length t).getLast hne).length := by
    conv_lhs => rw [← hflat]
    rw [List.length_append]
  simp only [trimRightLen, ← List.dropLast_eq_take]
  omega

/-! ## Theorems -/

/-- C1: on a focused entry with text `t`, delivering through `OnEvent` one
character key event (`Type = EventKey`, `Key = 0`, `Ch = c`) for each of the
characters `c1..cn` in order leaves `Text()` equal to `t` followed by
`string(c1)`, ..., `string(cn)` in that order, and changes no other field;
when `c1..cn` are Unicode code points, the appended bytes are the UTF-8 text
that Go reads back as the runes `c1..cn`. -/
theorem C1_typed_characters_are_appended_in_order (k : Consts) (e : Entry) (cs : List Int)
    (h : e.focused = true) :
    (deliver k e (cs.map (charEvent k))).1 =
        { e with text := e.text ++ (cs.map runeToString).flatten } ∧
      (deliver k e (cs.map (charEvent k))).1.Text =
        e.Text ++ (cs.map runeToString).flatten ∧
      ((∀ c ∈ cs, ValidRune c) →
        decodeRunes (cs.map runeToString).flatten.length (cs.map runeToString).flatten
          = cs.map Int.toNat) := by
  have key : ∀ (cs : List Int) (e : Entry), e.focused = true →
      (deliver k e (cs.map (charEvent k))).1 =
        { e with text := e.text ++ (cs.map runeToString).flatten } := by
    intro cs
    induction cs with
    | nil => intro e _; simp [deliver]
    | cons c cs ih =>
      intro e he
      simp only [List.map_cons, deliver, OnEvent_char k e c he]
      rw [ih { e with text := e.text ++ runeToString c } he]
      simp [List.append_assoc]
  refine ⟨key cs e h, ?_, ?_⟩
  · rw [key cs e h]
    rfl
  · intro hv
    exact decodeRunes_runeToString cs _ (length_le_flatten_runeToString cs) hv

/-- Witness of C1: "Hi" typed into the focused entry holding "a". -/
theorem C1_typed_characters_witness :
    (deliver termboxConsts { NewEntry with text := [0x61], focused := true }
        ([0x48, 0x69].map (charEvent termboxConsts))).1.Text
      = [0x61, 0x48, 0x69] :=
  (C1_typed_characters_are_appended_in_order termboxConsts
    { NewEntry with text := [0x61], focused := true } [0x48, 0x69] rfl).2.1

/-- C2: on an entry that is not focused, `OnEvent` with any event (any type,
any key, any character) leaves every field as it was and invokes no
callback. -/
theorem C2_unfocused_entry_ignores_every_event (k : Consts) (e : Entry) (ev : Event)
    (h : e.focused = false) :
    e.OnEvent k ev = (e, []) ∧ (e.OnEvent k ev).1.Text = e.Text := by
  simp [Entry.OnEvent, h]

/-- Witness of C2: a character key sent to the new, unfocused entry that has a
text-changed callback. -/
theorem C2_unfocused_entry_witness :
    (NewEntry.OnChanged (some 1)).OnEvent termboxConsts (charEvent termboxConsts 0x61)
        = (NewEntry.OnChanged (some 1), []) ∧
      ((NewEntry.OnChanged (some 1)).OnEvent termboxConsts
        (charEvent termboxConsts 0x61)).1.Text = (NewEntry.OnChanged (some 1)).Text :=
  C2_unfocused_entry_ignores_every_event termboxConsts (NewEntry.OnChanged (some 1))
    (charEvent termboxConsts 0x61) rfl

/-- C3: on a focused entry with text `t`, for every character `c`, the
character key event for `c` followed by a Backspace key event
(`KeyBackspace2`) leaves `Text()` equal to `t`, and every other field as it
was. -/
theorem C3_backspace_after_character_restores_text (k : Consts) (e : Entry) (c ch : Int)
    (h : e.focused = true) (h0 : k.KeyBackspace2 ≠ 0) (hE : k.KeyBackspace2 ≠ k.KeyEnter)
    (hS : k.KeyBackspace2 ≠ k.KeySpace) :
    (deliver k e [charEvent k c, keyEvent k k.KeyBackspace2 ch]).1 = e ∧
      (deliver k e [charEvent k c, keyEvent k k.KeyBackspace2 ch]).1.Text = e.Text := by
  have hpos : (e.text ++ runeToString c).length > 0 := by
    obtain ⟨b, tl, henc, _⟩ := runeToString_head c
    rw [henc]; simp
  have key : (deliver k e [charEvent k c, keyEvent k k.KeyBackspace2 ch]).1 = e := by
    simp only [deliver, OnEvent_char k e c h]
    rw [OnEvent_backspace k { e with text := e.text ++ runeToString c } ch h h0 hE hS,
      if_pos hpos]
    simp only [trimRightLen_append_rune]
  exact ⟨key, by rw [key]⟩

/-- Witness of C3: U+00E9 (two bytes, 0xC3 0xA9) typed after "H" and erased
again leaves "H". -/
theorem C3_backspace_after_character_witness :
    (deliver termboxConsts { NewEntry with text := [0x48], focused := true }
        [charEvent termboxConsts 0xE9,
         keyEvent termboxConsts termboxConsts.KeyBackspace2 0]).1.Text
      = [0x48] :=
  (C3_backspace_after_character_restores_text termboxConsts
    { NewEntry with text := [0x48], focused := true } 0xE9 0 rfl
    (by decide) (by decide) (by decide)).2

/-- C4: on a focused entry whose text is empty, a Backspace key event
(`KeyBackspace2`) is a no-op: `OnEvent` returns, the text is still empty, no
field changes and no callback is invoked. -/
theorem C4_backspace_on_empty_text_is_noop (k : Consts) (e : Entry) (ch : Int)
    (h : e.focused = true) (ht : e.text = []) (h0 : k.KeyBackspace2 ≠ 0)
    (hE : k.KeyBackspace2 ≠ k.KeyEnter) (hS : k.KeyBackspace2 ≠ k.KeySpace) :
    e.OnEvent k (keyEvent k k.KeyBackspace2 ch) = (e, []) ∧
      (e.OnEvent k (keyEvent k k.KeyBackspace2 ch)).1.Text = [] := by
  rw [OnEvent_backspace k e ch h h0 hE hS]
  simp [ht, Entry.Text]

/-- Witness of C4: Backspace on the new entry, focused, with a text-changed
callback. -/
theorem C4_backspace_on_empty_text_witness :
    ((NewEntry.SetFocused true).OnChanged (some 1)).OnEvent termboxConsts
        (keyEvent termboxConsts termboxConsts.KeyBackspace2 0)
      = ((NewEntry.SetFocused true).OnChanged (some 1), []) :=
  (C4_backspace_on_empty_text_is_noop termboxConsts
    ((NewEntry.SetFocused true).OnChanged (some 1)) 0 rfl rfl
    (by decide) (by decide) (by decide)).1

/-- C5: on a focused entry with any text `t`, an Enter key event leaves
`Text()` equal to `t` and every field as it was, and does not invoke the
text-changed callback; the submit callback is invoked exactly once, with the
entry, if one is registered, and nothing is invoked if none is. -/
theorem C5_enter_submits_and_keeps_text (k : Consts) (e : Entry) (ch : Int)
    (h : e.focused = true) (h0 : k.KeyEnter ≠ 0) :
    (e.OnEvent k (keyEvent k k.KeyEnter ch)).1 = e ∧
      (e.OnEvent k (keyEvent k k.KeyEnter ch)).1.Text = e.Text ∧
      (∀ fn, e.onSubmit = some fn →
        (e.OnEvent k (keyEvent k k.KeyEnter ch)).2 = [Call.submitted fn e]) ∧
      (e.onSubmit = none → (e.OnEvent k (keyEvent k k.KeyEnter ch)).2 = []) := by
  have key : e.OnEvent k (keyEvent k k.KeyEnter ch) = (e, Entry.fireSubmit e) := by
    simp [Entry.OnEvent, keyEvent, h, h0]
  rw [key]
  refine ⟨rfl, rfl, ?_, ?_⟩
  · intro fn hfn; simp [Entry.fireSubmit, hfn]
  · intro hn; simp [Entry.fireSubmit, hn]

/-- Witness of C5: Enter on a focused entry holding "Hi" with both callbacks
registered invokes the submit callback alone, once. -/
theorem C5_enter_witness :
    (Entry.OnEvent termboxConsts
        { NewEntry with text := [0x48, 0x69], focused := true, onTextChange := some 1,
                        onSubmit := some 2 }
        (keyEvent termboxConsts termboxConsts.KeyEnter 0)).2
      = [Call.submitted 2
          { NewEntry with text := [0x48, 0x69], focused := true, onTextChange := some 1,
                          onSubmit := some 2 }] :=
  (C5_enter_submits_and_keeps_text termboxConsts
    { NewEntry with text := [0x48, 0x69], focused := true, onTextChange := some 1,
                    onSubmit := some 2 } 0 rfl (by decide)).2.2.1 2 rfl

/-- C6: for every entry (focused or not, with or without a text-changed
callback) and every string `s`, after `SetText(s)` the result of `Text()` is
exactly `s`, the call has invoked no callback, and size, focus, callbacks and
size policies are as before. -/
theorem C6_SetText_then_Text_roundtrip (k : Consts) (e : Entry) (s : GoString) :
    (perform k e (Op.SetText s)).1.Text = s ∧
      (perform k e (Op.SetText s)).2 = [] ∧
      (perform k e (Op.SetText s)).1.size = e.size ∧
      (perform k e (Op.SetText s)).1.focused = e.focused ∧
      (perform k e (Op.SetText s)).1.onTextChange = e.onTextChange ∧
      (perform k e (Op.SetText s)).1.onSubmit = e.onSubmit ∧
      (perform k e (Op.SetText s)).1.sizePolicyX = e.sizePolicyX ∧
      (perform k e (Op.SetText s)).1.sizePolicyY = e.sizePolicyY := by
  simp [perform, Entry.SetText, Entry.Text]

/-- C7: on a focused entry whose text is `n` printable ASCII characters and
whose width `W` satisfies `1 ≤ W ≤ n`, `Draw` draws at column 0, row 0 exactly
the last `W - 1` characters of the text and draws the cursor at column
`W - 1`, for every display-width function that counts printable ASCII text
one column per character. -/
theorem C7_long_text_shows_last_columns (sw : GoString → Int) (e : Entry)
    (hsw : AsciiColumns sw) (hf : e.focused = true) (ha : PrintableASCII e.text)
    (hW : 1 ≤ e.size.X) (hn : e.size.X ≤ (e.text.length : Int)) :
    e.Draw sw = DrawResult.drawn "entry.focused"
        [PainterCall.FillRect 0 0 e.size.X 1,
         PainterCall.DrawText 0 0 (e.text.drop (e.text.length - (e.size.X.toNat - 1))),
         PainterCall.DrawCursor (e.size.X - 1) 0] ∧
      ((e.text.drop (e.text.length - (e.size.X.toNat - 1))).length : Int) = e.size.X - 1 := by
  have htw : sw e.text = (e.text.length : Int) := hsw e.text ha
  have hoff : (((e.text.length : Int) - e.size.X + 1).toNat) =
      e.text.length - (e.size.X.toNat - 1) := by omega
  have hlen : ((e.text.drop (e.text.length - (e.size.X.toNat - 1))).length : Int)
      = e.size.X - 1 := by
    rw [List.length_drop]; omega
  have hsl : sliceFrom e.text ((e.text.length : Int) - e.size.X + 1) =
      some (e.text.drop (e.text.length - (e.size.X.toNat - 1))) := by
    have hb : 0 ≤ (e.text.length : Int) - e.size.X + 1 ∧
        (e.text.length : Int) - e.size.X + 1 ≤ (e.text.length : Int) := by
      constructor <;> omega
    simp only [sliceFrom, if_pos hb, hoff]
  have hcur : sw (e.text.drop (e.text.length - (e.size.X.toNat - 1))) = e.size.X - 1 := by
    rw [hsw _ (PrintableASCII_drop e.text _ ha), hlen]
  have hge : (e.text.length : Int) ≥ e.size.X := hn
  refine ⟨?_, hlen⟩
  unfold Entry.Draw
  simp only [Entry.Size, htw, hf, if_true, if_pos hge, hsl, hcur]
  rfl

/-- Witness of C7: width 5 and the text "HelloWorld", focused, draw "orld" and
the cursor at column 4. -/
theorem C7_HelloWorld_width_5_witness :
    Entry.Draw stringWidth
        { NewEntry with
          text := [0x48, 0x65, 0x6C, 0x6C, 0x6F, 0x57, 0x6F, 0x72, 0x6C, 0x64],
          size := ⟨5, 1⟩, focused := true }
      = DrawResult.drawn "entry.focused"
          [PainterCall.FillRect 0 0 5 1,
           PainterCall.DrawText 0 0 [0x6F, 0x72, 0x6C, 0x64],
           PainterCall.DrawCursor 4 0] :=
  (C7_long_text_shows_last_columns stringWidth
    { NewEntry with
      text := [0x48, 0x65, 0x6C, 0x6C, 0x6F, 0x57, 0x6F, 0x72, 0x6C, 0x64],
      size := ⟨5, 1⟩, focused := true }
    stringWidth_ascii rfl (by decide) (by decide) (by decide)).1

/-- C8: on an entry whose text has a display width `tw` strictly less than
its width `W`, `Draw` draws the entire text unchanged at column 0, row 0; when
the entry is focused the cursor is drawn at column `tw`, and when it is not no
cursor is drawn. -/
theorem C8_short_text_is_drawn_whole (sw : GoString → Int) (e : Entry)
    (h : sw e.text < e.size.X) :
    (e.focused = true →
        e.Draw sw = DrawResult.drawn "entry.focused"
          [PainterCall.FillRect 0 0 e.size.X 1, PainterCall.DrawText 0 0 e.text,
           PainterCall.DrawCursor (sw e.text) 0]) ∧
      (e.focused = false →
        e.Draw sw = DrawResult.drawn "entry"
          [PainterCall.FillRect 0 0 e.size.X 1, PainterCall.DrawText 0 0 e.text]) := by
  have hge : ¬ (sw e.text ≥ e.size.X) := by omega
  constructor
  · intro hf
    unfold Entry.Draw
    simp only [Entry.Size, hf, if_true, if_neg hge]
    rfl
  · intro hf
    unfold Entry.Draw
    simp only [Entry.Size, hf, if_neg hge]
    rfl

/-- Witness of C8: width 10 and the text "Hi", not focused, draw "Hi" at
column 0 and no cursor. -/
theorem C8_Hi_width_10_witness :
    Entry.Draw stringWidth { NewEntry with text := [0x48, 0x69], size := ⟨10, 1⟩ }
      = DrawResult.drawn "entry"
          [PainterCall.FillRect 0 0 10 1, PainterCall.DrawText 0 0 [0x48, 0x69]] :=
  (C8_short_text_is_drawn_whole stringWidth
    { NewEntry with text := [0x48, 0x69], size := ⟨10, 1⟩ } (by decide)).2 rfl

/-- C9 fails on the code: in the state `NewEntry()` followed by
`SetFocused(true)` (width 0, empty text) `Draw` computes `offx = 1` and
evaluates `text[1:]` on a string of length 0, which is a run-time panic; the
same happens at width 0 for the focused text "Hi" (`offx = 3`, length 2). -/
theorem C9_Draw_panics_at_width_zero_when_focused :
    Entry.Draw stringWidth (NewEntry.SetFocused true) = DrawResult.slicePanic 1 0 ∧
      Entry.Draw stringWidth ((NewEntry.SetFocused true).SetText [0x48, 0x69])
        = DrawResult.slicePanic 3 2 := by
  decide

/-- C10: for every entry state, and so for the new entry and for the state
after any sequence of method calls on it, `MinSizeHint()` returns (1,1) and
`SizeHint()` returns (10,1). -/
theorem C10_size_hints_are_constant (k : Consts) (e : Entry) (ops : List Op) :
    e.MinSizeHint = ⟨1, 1⟩ ∧ e.SizeHint = ⟨10, 1⟩ ∧
      NewEntry.MinSizeHint = ⟨1, 1⟩ ∧ NewEntry.SizeHint = ⟨10, 1⟩ ∧
      (performAll k NewEntry ops).1.MinSizeHint = ⟨1, 1⟩ ∧
      (performAll k NewEntry ops).1.SizeHint = ⟨10, 1⟩ :=
  ⟨rfl, rfl, rfl, rfl, rfl, rfl⟩

/-- C11: for every entry and every pair of size policies `(x, y)`, after
`SetSizePolicy(x, y)` the result of `SizePolicy()` is exactly `(x, y)`; it stays
`(x, y)` across any later calls that are not `SetSizePolicy` (`SetText`,
`Resize`, `SetFocused`, `OnEvent`, and also `OnChanged`, `OnSubmit`, `Draw`);
and `SetSizePolicy` itself leaves text, size, focus and callbacks unchanged. -/
theorem C11_SetSizePolicy_then_SizePolicy (k : Consts) (e : Entry) (x y : SizePolicy)
    (ops : List Op) (hops : ∀ op ∈ ops, ∀ h v, op ≠ Op.SetSizePolicy h v) :
    (e.SetSizePolicy x y).SizePolicy = (x, y) ∧
      (performAll k (e.SetSizePolicy x y) ops).1.SizePolicy = (x, y) ∧
      (e.SetSizePolicy x y).text = e.text ∧
      (e.SetSizePolicy x y).size = e.size ∧
      (e.SetSizePolicy x y).focused = e.focused ∧
      (e.SetSizePolicy x y).onTextChange = e.onTextChange ∧
      (e.SetSizePolicy x y).onSubmit = e.onSubmit := by
  have key : ∀ (ops : List Op) (e1 : Entry),
      (∀ op ∈ ops, ∀ h v, op ≠ Op.SetSizePolicy h v) →
      (performAll k e1 ops).1.SizePolicy = e1.SizePolicy := by
    intro ops
    induction ops with
    | nil => intro e1 _; rfl
    | cons op ops ih =>
      intro e1 h
      simp only [performAll]
      rw [ih (perform k e1 op).1 (fun o ho => h o (List.mem_cons_of_mem op ho)),
        perform_sizePolicy k e1 op (h op (List.mem_cons_self op ops))]
  refine ⟨rfl, ?_, rfl, rfl, rfl, rfl, rfl⟩
  rw [key ops (e.SetSizePolicy x y) hops]
  rfl

/-- Witness of C11: the policies (1, 2) survive a text change, a resize, a
focus change and a typed character. -/
theorem C11_SetSizePolicy_witness :
    (performAll termboxConsts (NewEntry.SetSizePolicy 1 2)
        [Op.SetText [0x48], Op.Resize ⟨7, 1⟩, Op.SetFocused true,
         Op.OnEvent (charEvent termboxConsts 0x69)]).1.SizePolicy = (1, 2) :=
  (C11_SetSizePolicy_then_SizePolicy termboxConsts NewEntry 1 2
    [Op.SetText [0x48], Op.Resize ⟨7, 1⟩, Op.SetFocused true,
     Op.OnEvent (charEvent termboxConsts 0x69)]
    (by
      intro op hop h v
      simp only [List.mem_cons, List.mem_singleton, List.not_mem_nil, or_false] at hop
      rcases hop with rfl | rfl | rfl | rfl <;> simp)).2.1

/-- C12: on a focused entry, `OnEvent` with the Space named-key event
(`Key = KeySpace`) gives the same entry and the same callback invocations as
`OnEvent` with the character key event for a literal space (`Key = 0`,
`Ch = ' '`): the text gains exactly one trailing byte 0x20 and the
text-changed callback is invoked once, with the updated entry, if one is
registered, and not at all if none is. -/
theorem C12_space_key_is_space_character (k : Consts) (e : Entry) (ch : Int)
    (h : e.focused = true) (h0 : k.KeySpace ≠ 0) (hE : k.KeySpace ≠ k.KeyEnter) :
    e.OnEvent k (keyEvent k k.KeySpace ch) = e.OnEvent k (charEvent k 0x20) ∧
      (e.OnEvent k (keyEvent k k.KeySpace ch)).1 = { e with text := e.text ++ [0x20] } ∧
      (∀ fn, e.onTextChange = some fn →
        (e.OnEvent k (keyEvent k k.KeySpace ch)).2 =
          [Call.textChanged fn { e with text := e.text ++ [0x20] }]) ∧
      (e.onTextChange = none → (e.OnEvent k (keyEvent k k.KeySpace ch)).2 = []) := by
  have hsp : runeToString 0x20 = [0x20] := by decide
  rw [OnEvent_space k e ch h h0 hE, OnEvent_char k e 0x20 h, hsp]
  refine ⟨rfl, rfl, ?_, ?_⟩
  · intro fn hfn; simp [Entry.fireTextChange, hfn]
  · intro hn; simp [Entry.fireTextChange, hn]

/-- Witness of C12: the Space key and the character ' ' on the focused entry
holding "H". -/
theorem C12_space_key_witness :
    Entry.OnEvent termboxConsts { NewEntry with text := [0x48], focused := true }
        (keyEvent termboxConsts termboxConsts.KeySpace 0)
      = Entry.OnEvent termboxConsts { NewEntry with text := [0x48], focused := true }
          (charEvent termboxConsts 0x20) :=
  (C12_space_key_is_space_character termboxConsts
    { NewEntry with text := [0x48], focused := true } 0 rfl (by decide) (by decide)).1

/-- C13: the focused flag changes only through `SetFocused`: after a call of
`OnEvent` (any event), `SetText`, `Resize`, `SetSizePolicy`, `OnChanged`,
`OnSubmit` or `Draw` the flag equals the flag before the call, and after
`SetFocused(b)` the flag equals `b`. -/
theorem C13_focus_changes_only_by_SetFocused (k : Consts) (e : Entry) (op : Op) (b : Bool)
    (hop : ∀ f, op ≠ Op.SetFocused f) :
    (perform k e op).1.focused = e.focused ∧
      (perform k e (Op.SetFocused b)).1.focused = b ∧
      (e.SetFocused b).focused = b :=
  ⟨perform_focused k e op hop, rfl, rfl⟩

/-- Witness of C13: a typed character leaves the focused entry focused. -/
theorem C13_focus_witness :
    (perform termboxConsts (NewEntry.SetFocused true)
        (Op.OnEvent (charEvent termboxConsts 0x61))).1.focused
      = (NewEntry.SetFocused true).focused :=
  (C13_focus_changes_only_by_SetFocused termboxConsts (NewEntry.SetFocused true)
    (Op.OnEvent (charEvent termboxConsts 0x61)) true (by intro f; simp)).1

/-- C14: on a focused entry, a key event whose named key is non-zero and is
none of `KeyEnter`, `KeySpace` and `KeyBackspace2` is a no-op: text and all
other fields are unchanged and no callback is invoked, whatever character the
event also carries. -/
theorem C14_other_named_key_is_noop (k : Consts) (e : Entry) (key : Nat) (ch : Int)
    (h : e.focused = true) (h0 : key ≠ 0) (hE : key ≠ k.KeyEnter) (hS : key ≠ k.KeySpace)
    (hB : key ≠ k.KeyBackspace2) :
    e.OnEvent k (keyEvent k key ch) = (e, []) ∧
      (e.OnEvent k (keyEvent k key ch)).1.Text = e.Text := by
  rw [OnEvent_other_key k e key ch h h0 hE hS hB]
  exact ⟨rfl, rfl⟩

/-- Witness of C14: the key 0x09 (Tab) carrying the character 'a', on a
focused entry holding "Hi" with both callbacks registered. -/
theorem C14_other_named_key_witness :
    Entry.OnEvent termboxConsts
        { NewEntry with text := [0x48, 0x69], focused := true, onTextChange := some 1,
                        onSubmit := some 2 }
        (keyEvent termboxConsts 0x09 0x61)
      = ({ NewEntry with text := [0x48, 0x69], focused := true, onTextChange := some 1,
                         onSubmit := some 2 }, []) :=
  (C14_other_named_key_is_noop termboxConsts
    { NewEntry with text := [0x48, 0x69], focused := true, onTextChange := some 1,
                    onSubmit := some 2 }
    0x09 0x61 rfl (by decide) (by decide) (by decide) (by decide)).1

/-- C15: the entry returned by `NewEntry()` has empty text (`Text() = ""`), is
not focused, has size (0,0) (`Size() = (0,0)`), and has no text-changed and no
submit callback registered. -/
theorem C15_NewEntry_is_empty_unfocused_zero_size :
    NewEntry.Text = [] ∧ NewEntry.focused = false ∧ NewEntry.Size = ⟨0, 0⟩ ∧
      NewEntry.onTextChange = none ∧ NewEntry.onSubmit = none :=
  ⟨rfl, rfl, rfl, rfl, rfl⟩

/-- C16: on a focused entry with a registered text-changed callback `fn`, one
`OnEvent` call invokes `fn` exactly once, with the entry whose text is already
updated, when the event is a character key, the Space key, or Backspace on
non-empty text, and invokes it zero times when the event is Backspace on empty
text, Enter, or any other named key; so a Backspace invokes the callback if
and only if the text was non-empty, which is when the text gets shorter. -/
theorem C16_text_changed_callback_fires_once_per_edit (k : Consts) (e : Entry)
    (fn : Callback) (h : e.focused = true) (hfn : e.onTextChange = some fn)
    (hE0 : k.KeyEnter ≠ 0) (hS0 : k.KeySpace ≠ 0) (hSE : k.KeySpace ≠ k.KeyEnter)
    (hB0 : k.KeyBackspace2 ≠ 0) (hBE : k.KeyBackspace2 ≠ k.KeyEnter)
    (hBS : k.KeyBackspace2 ≠ k.KeySpace) :
    (∀ c, (e.OnEvent k (charEvent k c)).2 =
        [Call.textChanged fn { e with text := e.text ++ runeToString c }]) ∧
      (∀ ch, (e.OnEvent k (keyEvent k k.KeySpace ch)).2 =
        [Call.textChanged fn { e with text := e.text ++ [0x20] }]) ∧
      (∀ ch, e.text ≠ [] →
        (e.OnEvent k (keyEvent k k.KeyBackspace2 ch)).2 =
            [Call.textChanged fn { e with text := trimRightLen e.text 1 }] ∧
          (e.OnEvent k (keyEvent k k.KeyBackspace2 ch)).1 =
            { e with text := trimRightLen e.text 1 }) ∧
      (∀ ch, e.text = [] → (e.OnEvent k (keyEvent k k.KeyBackspace2 ch)).2 = []) ∧
      (∀ ch, (e.OnEvent k (keyEvent k k.KeyEnter ch)).2 = Entry.fireSubmit e ∧
        ∀ f a, Call.textChanged f a ∉ (e.OnEvent k (keyEvent k k.KeyEnter ch)).2) ∧
      (∀ key ch, key ≠ 0 → key ≠ k.KeyEnter → key ≠ k.KeySpace → key ≠ k.KeyBackspace2 →
        (e.OnEvent k (keyEvent k key ch)).2 = []) ∧
      (∀ ch, (e.OnEvent k (keyEvent k k.KeyBackspace2 ch)).2 ≠ [] ↔ e.text ≠ []) ∧
      (∀ ch, (e.OnEvent k (keyEvent k k.KeyBackspace2 ch)).2 ≠ [] ↔
        (e.OnEvent k (keyEvent k k.KeyBackspace2 ch)).1.text.length < e.text.length) := by
  have hbs : ∀ ch, e.text ≠ [] →
      e.OnEvent k (keyEvent k k.KeyBackspace2 ch) =
        ({ e with text := trimRightLen e.text 1 },
          [Call.textChanged fn { e with text := trimRightLen e.text 1 }]) := by
    intro ch ht
    have hpos : e.text.length > 0 := List.length_pos.mpr ht
    rw [OnEvent_backspace k e ch h hB0 hBE hBS, if_pos hpos]
    simp [Entry.fireTextChange, hfn]
  have hbe : ∀ ch, e.text = [] → e.OnEvent k (keyEvent k k.KeyBackspace2 ch) = (e, []) := by
    intro ch ht
    have hpos : ¬ e.text.length > 0 := by simp [ht]
    rw [OnEvent_backspace k e ch h hB0 hBE hBS, if_neg hpos]
  have hen : ∀ ch, e.OnEvent k (keyEvent k k.KeyEnter ch) = (e, Entry.fireSubmit e) := by
    intro ch
    simp [Entry.OnEvent, keyEvent, h, hE0]
  refine ⟨?_, ?_, ?_, ?_, ?_, ?_, ?_, ?_⟩
  · intro c
    rw [OnEvent_char k e c h]
    simp [Entry.fireTextChange, hfn]
  · intro ch
    rw [OnEvent_space k e ch h hS0 hSE]
    simp [Entry.fireTextChange, hfn]
  · intro ch ht
    rw [hbs ch ht]
    exact ⟨rfl, rfl⟩
  · intro ch ht
    rw [hbe ch ht]
  · intro ch
    rw [hen ch]
    refine ⟨rfl, ?_⟩
    intro f a hmem
    cases hs : e.onSubmit with
    | none => simp [Entry.fireSubmit, hs] at hmem
    | some g => simp [Entry.fireSubmit, hs] at hmem
  · intro key ch h0 hE hS hB
    rw [OnEvent_other_key k e key ch h h0 hE hS hB]
  · intro ch
    by_cases ht : e.text = []
    · rw [hbe ch ht]; simp [ht]
    · rw [hbs ch ht]; simp [ht]
  · intro ch
    by_cases ht : e.text = []
    · rw [hbe ch ht]; simp
    · rw [hbs ch ht]
      have := trimRightLen_length_lt e.text ht
      simp only [ne_eq, List.cons_ne_self, not_false_eq_true, true_iff]
      exact this

/-- Witness of C16: Backspace on the focused entry holding "Hi", with the
text-changed callback 1 registered, invokes it once with the entry holding
"H". -/
theorem C16_text_changed_callback_witness :
    (Entry.OnEvent termboxConsts
        { NewEntry with text := [0x48, 0x69], focused := true, onTextChange := some 1 }
        (keyEvent termboxConsts termboxConsts.KeyBackspace2 0)).2
      = [Call.textChanged 1
          { NewEntry with text := [0x48], focused := true, onTextChange := some 1 }] :=
  ((C16_text_changed_callback_fires_once_per_edit termboxConsts
    { NewEntry with text := [0x48, 0x69], focused := true, onTextChange := some 1 } 1
    rfl rfl (by decide) (by decide) (by decide) (by decide) (by decide)
    (by decide)).2.2.1 0 (by decide)).1

/-- C17, as stated, fails: `Resize` stores any argument, so after
`Resize((-1, -1))` on the new entry both components of `Size()` are negative. -/
theorem C17_Resize_with_negative_argument_gives_negative_size :
    (performAll termboxConsts NewEntry [Op.Resize ⟨-1, -1⟩]).1.Size = ⟨-1, -1⟩ ∧
      ¬ (0 ≤ (performAll termboxConsts NewEntry [Op.Resize ⟨-1, -1⟩]).1.Size.X ∧
         0 ≤ (performAll termboxConsts NewEntry [Op.Resize ⟨-1, -1⟩]).1.Size.Y) := by
  decide

/-- C17, amended: in every state reached from `NewEntry()` by a sequence of
method calls (`Resize`, `SetText`, `SetFocused`, `SetSizePolicy`, `OnEvent`,
`OnChanged`, `OnSubmit`, `Draw`), `Size()` equals the argument of the most
recent `Resize`, or (0,0) if there was none, no other call changing it; so both
components of `Size()` are at least 0 when the components of every `Resize`
argument are. -/
theorem C17_Size_is_the_last_Resize_argument (k : Consts) (ops : List Op) :
    (performAll k NewEntry ops).1.Size = lastResize ⟨0, 0⟩ ops ∧
      (∀ (e : Entry) (op : Op), (∀ p, op ≠ Op.Resize p) →
        (perform k e op).1.Size = e.Size) ∧
      (∀ (e : Entry) (p : Point), (perform k e (Op.Resize p)).1.Size = p) ∧
      ((∀ q, Op.Resize q ∈ ops → 0 ≤ q.X ∧ 0 ≤ q.Y) →
        0 ≤ (performAll k NewEntry ops).1.Size.X ∧
        0 ≤ (performAll k NewEntry ops).1.Size.Y) := by
  have hsz : (performAll k NewEntry ops).1.Size = lastResize ⟨0, 0⟩ ops :=
    performAll_size k ops NewEntry
  refine ⟨hsz, ?_, ?_, ?_⟩
  · intro e op hop
    exact perform_size k e op hop
  · intro e p
    rfl
  · intro hq
    rw [hsz]
    exact lastResize_nonneg ops ⟨0, 0⟩ ⟨le_refl _, le_refl _⟩ hq

/-- Witness of C17 amended: after `Resize((7,1))`, a text change and
`Resize((5,2))` the size is (5,2), with components at least 0. -/
theorem C17_Size_witness :
    0 ≤ (performAll termboxConsts NewEntry
          [Op.Resize ⟨7, 1⟩, Op.SetText [0x48], Op.Resize ⟨5, 2⟩]).1.Size.X ∧
      0 ≤ (performAll termboxConsts NewEntry
          [Op.Resize ⟨7, 1⟩, Op.SetText [0x48], Op.Resize ⟨5, 2⟩]).1.Size.Y :=
  (C17_Size_is_the_last_Resize_argument termboxConsts
    [Op.Resize ⟨7, 1⟩, Op.SetText [0x48], Op.Resize ⟨5, 2⟩]).2.2.2
    (by
      intro q hq
      simp only [List.mem_cons, List.mem_singleton, List.not_mem_nil, or_false,
        Op.Resize.injEq, reduceCtorEq, false_or] at hq
      rcases hq with rfl | rfl <;> decide)

/-- C18: right-anchored window within bounds.  For every entry whose text is
printable ASCII and whose width `W` is at least 1, and every display-width
function that counts printable ASCII text one column per character, `Draw`
runs to its end and the string `shown` it passes to `DrawText` is a suffix of
the text; the display width of `shown`, plus one reserved cursor column when
the entry is focused, is at most `W` (so a drawn cursor column is at most
`W - 1`); and that bound is met with equality whenever the display width of the
text is at least `W` (not focused: `shown` is exactly the last `W` characters). -/
theorem C18_drawn_text_is_a_suffix_within_the_width (sw : GoString → Int) (e : Entry)
    (hsw : AsciiColumns sw) (ha : PrintableASCII e.text) (hW : 1 ≤ e.size.X) :
    ∃ shown : GoString,
      e.Draw sw = DrawResult.drawn (if e.focused then "entry.focused" else "entry")
          ([PainterCall.FillRect 0 0 e.size.X 1, PainterCall.DrawText 0 0 shown] ++
            (if e.focused then [PainterCall.DrawCursor (sw shown) 0] else [])) ∧
        shown <:+ e.text ∧
        sw shown + (if e.focused then 1 else 0) ≤ e.size.X ∧
        (e.focused = true → sw shown ≤ e.size.X - 1) ∧
        (sw e.text ≥ e.size.X → sw shown + (if e.focused then 1 else 0) = e.size.X) ∧
        (e.focused = false → sw e.text ≥ e.size.X →
          shown = e.text.drop (e.text.length - e.size.X.toNat) ∧
            (shown.length : Int) = e.size.X) := by
  have htw : sw e.text = (e.text.length : Int) := hsw e.text ha
  by_cases hge : (e.text.length : Int) ≥ e.size.X
  · -- the text fills the width: the slice `text[offx:]` is taken
    cases hf : e.focused with
    | true =>
      have hoff : (((e.text.length : Int) - e.size.X + 1).toNat) =
          e.text.length - (e.size.X.toNat - 1) := by omega
      have hlen : ((e.text.drop (e.text.length - (e.size.X.toNat - 1))).length : Int)
          = e.size.X - 1 := by
        rw [List.length_drop]; omega
      have hsl : sliceFrom e.text ((e.text.length : Int) - e.size.X + 1) =
          some (e.text.drop (e.text.length - (e.size.X.toNat - 1))) := by
        have hb : 0 ≤ (e.text.length : Int) - e.size.X + 1 ∧
            (e.text.length : Int) - e.size.X + 1 ≤ (e.text.length : Int) := by
          constructor <;> omega
        simp only [sliceFrom, if_pos hb, hoff]
      have hcur : sw (e.text.drop (e.text.length - (e.size.X.toNat - 1))) = e.size.X - 1 := by
        rw [hsw _ (PrintableASCII_drop e.text _ ha), hlen]
      refine ⟨e.text.drop (e.text.length - (e.size.X.toNat - 1)), ?_, List.drop_suffix _ _,
        ?_, ?_, ?_, ?_⟩
      · unfold Entry.Draw
        simp only [Entry.Size, htw, hf, if_true, if_pos hge, hsl, hcur]
        rfl
      · rw [hcur]; simp
      · intro _; rw [hcur]
      · intro _; rw [hcur]; simp
      · intro hc; exact absurd hc (by simp)
    | false =>
      have hoff : (((e.text.length : Int) - e.size.X).toNat) =
          e.text.length - e.size.X.toNat := by omega
      have hlen : ((e.text.drop (e.text.length - e.size.X.toNat)).length : Int)
          = e.size.X := by
        rw [List.length_drop]; omega
      have hsl : sliceFrom e.text ((e.text.length : Int) - e.size.X) =
          some (e.text.drop (e.text.length - e.size.X.toNat)) := by
        have hb : 0 ≤ (e.text.length : Int) - e.size.X ∧
            (e.text.length : Int) - e.size.X ≤ (e.text.length : Int) := by
          constructor <;> omega
        simp only [sliceFrom, if_pos hb, hoff]
      have hcur : sw (e.text.drop (e.text.length - e.size.X.toNat)) = e.size.X := by
        rw [hsw _ (PrintableASCII_drop e.text _ ha), hlen]
      refine ⟨e.text.drop (e.text.length - e.size.X.toNat), ?_, List.drop_suffix _ _,
        ?_, ?_, ?_, ?_⟩
      · unfold Entry.Draw
        simp only [Entry.Size, htw, hf, if_pos hge, Bool.false_eq_true, if_false, hsl]
      · rw [hcur]; simp
      · intro hc; exact absurd hc (by simp)
      · intro _; rw [hcur]; simp
      · intro _ _; exact ⟨rfl, hlen⟩
  · -- the text is shorter than the width: it is drawn whole
    have hlt : sw e.text < e.size.X := by rw [htw]; omega
    have hnge : ¬ (sw e.text ≥ e.size.X) := by omega
    refine ⟨e.text, ?_, List.suffix_refl _, ?_, ?_, ?_, ?_⟩
    · exact Draw_of_width_lt sw e hlt
    · split_ifs <;> omega
    · intro _; omega
    · intro hc; exact absurd hc hnge
    · intro _ hc; exact absurd hc hnge

/-- Witness of C18: width 5 and the text "HelloWorld", not focused, draw the
last five characters "World". -/
theorem C18_HelloWorld_unfocused_witness :
    ∃ shown : GoString,
      Entry.Draw stringWidth
          { NewEntry with
            text := [0x48, 0x65, 0x6C, 0x6C, 0x6F, 0x57, 0x6F, 0x72, 0x6C, 0x64],
            size := ⟨5, 1⟩ }
        = DrawResult.drawn "entry"
            [PainterCall.FillRect 0 0 5 1, PainterCall.DrawText 0 0 shown] ∧
        shown = [0x57, 0x6F, 0x72, 0x6C, 0x64] := by
  obtain ⟨shown, hd, _, _, _, _, hlast⟩ :=
    C18_drawn_text_is_a_suffix_within_the_width stringWidth
      { NewEntry with
        text := [0x48, 0x65, 0x6C, 0x6C, 0x6F, 0x57, 0x6F, 0x72, 0x6C, 0x64],
        size := ⟨5, 1⟩ }
      stringWidth_ascii (by decide) (by decide)
  exact ⟨shown, hd, (hlast rfl (by decide)).1⟩

/-- C19: on a focused entry, an event whose type is not `EventKey`, whatever
its `Key` and `Ch` fields hold, leaves text and all other fields unchanged and
invokes no callback. -/
theorem C19_non_key_event_is_ignored (k : Consts) (e : Entry) (ev : Event)
    (h : e.focused = true) (ht : ev.Typ ≠ k.EventKey) :
    e.OnEvent k ev = (e, []) ∧ (e.OnEvent k ev).1.Text = e.Text := by
  have key : e.OnEvent k ev = (e, []) := by
    simp [Entry.OnEvent, h, ht]
  rw [key]
  exact ⟨rfl, rfl⟩

/-- Witness of C19: an event of type 1 that holds `Key = 0` and the character
'a', on a focused entry with both callbacks registered. -/
theorem C19_non_key_event_witness :
    Entry.OnEvent termboxConsts
        { NewEntry with focused := true, onTextChange := some 1, onSubmit := some 2 }
        { Typ := 1, Key := 0, Ch := 0x61 }
      = ({ NewEntry with focused := true, onTextChange := some 1, onSubmit := some 2 }, []) :=
  (C19_non_key_event_is_ignored termboxConsts
    { NewEntry with focused := true, onTextChange := some 1, onSubmit := some 2 }
    { Typ := 1, Key := 0, Ch := 0x61 } rfl (by decide)).1

end Tui
